import Mathlib

/-
Verification of the avatar-creator model runtime and S3 artifact layer.

The development shallowly embeds the Python sources:
  * core/steps/modules/models/base.py   (BaseModelModule: load_model,
    __call__, _run_inference, download_model)
  * core/steps/modules/utilities/s3_module.py (S3Module: list_files,
    get_latest_version, download_version, upload_to_s3, batch_upload)
  * models/errors.py (the error taxonomy)

Python strings are modelled as Lean strings compared code point by code
point, Python datetimes as naturals, and the asyncio interleaving of
`__call__` coroutines as a small-step transition system.
-/

namespace AvatarCreator

/-! ## Model runtime (base.py)

`load_model` initializes, for a loaded model,
  model_info = { model, concurrent_count = 0, lock = Lock(),
                 sem = asyncio.Semaphore(concurrent_per_model) }.

`__call__` (infer) does, per call:
  1. `async with model_info['sem']`   -- acquire one permit (suspends while none free)
  2. `await asyncio.to_thread(_run_inference, ...)` -- dispatch forward to a worker thread
  3. `_run_inference` runs `forward`, and in its `finally` block, under
     `model_info['lock']`, sets
        concurrent_count = max(0, concurrent_count - 1)
  4. leaving the `async with` releases the permit; on an exception the
     `except` clause logs and bare-`raise`s, so the computation's failure
     propagates to the caller.

Each inference call is modelled by a phase; a runtime state is the free
permit count of the semaphore, the `concurrent_count` value (a Python int,
hence `Int`), and the phase of every call. Each transition is one of the
atomic events above; the counter update is a single transition because it
is executed while holding `model_info['lock']`.
-/

/-- Phase of one `__call__` invocation on a loaded runtime: not yet past the
semaphore, holding a permit but not yet computing, running `forward` in the
worker thread, done computing (the `finally` decrement has executed) with a
success flag, or completed (permit released, result returned or exception
re-raised to the caller). -/
inductive Phase where
  | ready
  | hasPermit
  | computing
  | finished (ok : Bool)
  | done (ok : Bool)
deriving DecidableEq

/-- State of one loaded `BaseModelModule` under a set of in-flight calls:
free permits of `model_info['sem']`, the value of
`model_info['concurrent_count']`, and the phase of each call. -/
structure RState where
  semAvail : Nat
  count : Int
  calls : List Phase
deriving DecidableEq

/-- State right after `load_model` succeeded with limit `limit`, with
`numCalls` inference calls about to enter `__call__`: the semaphore holds
`limit` permits and `concurrent_count` is 0. -/
def initState (limit numCalls : Nat) : RState :=
  ⟨limit, 0, List.replicate numCalls Phase.ready⟩

/-- One atomic event of call `i`, mirroring `__call__`/`_run_inference`:

  * `acquire`: the `async with model_info['sem']` entry; only enabled while
    a permit is free, and takes one.
  * `dispatch`: `asyncio.to_thread(self._run_inference, ...)` starts
    `forward` on a worker thread.
  * `finish`: `forward` returns (`ok = true`) or raises (`ok = false`); the
    `finally` block runs under `model_info['lock']` and sets
    `concurrent_count = max(0, concurrent_count - 1)`. The source contains
    no increment of `concurrent_count` anywhere, so no transition
    increments it.
  * `release`: the `async with` block exits (normally or by exception
    propagation), returning the permit; a failed computation is re-raised
    by the bare `raise` in `__call__`, so the call completes as failed. -/
inductive Step : Nat → RState → RState → Prop where
  | acquire {s : RState} (i : Nat)
      (h : s.calls[i]? = some Phase.ready) (hsem : 0 < s.semAvail) :
      Step i s ⟨s.semAvail - 1, s.count, s.calls.set i Phase.hasPermit⟩
  | dispatch {s : RState} (i : Nat)
      (h : s.calls[i]? = some Phase.hasPermit) :
      Step i s ⟨s.semAvail, s.count, s.calls.set i Phase.computing⟩
  | finish {s : RState} (i : Nat) (ok : Bool)
      (h : s.calls[i]? = some Phase.computing) :
      Step i s ⟨s.semAvail, max 0 (s.count - 1), s.calls.set i (Phase.finished ok)⟩
  | release {s : RState} (i : Nat) (ok : Bool)
      (h : s.calls[i]? = some (Phase.finished ok)) :
      Step i s ⟨s.semAvail + 1, s.count, s.calls.set i (Phase.done ok)⟩

/-- Reachability from a start state by interleaved call events. -/
inductive Reach (s₀ : RState) : RState → Prop where
  | refl : Reach s₀ s₀
  | tail {s s' : RState} (i : Nat) : Reach s₀ s → Step i s s' → Reach s₀ s'

/-- A call in this phase holds a semaphore permit. -/
def holdsPermit : Phase → Bool
  | Phase.hasPermit => true
  | Phase.computing => true
  | Phase.finished _ => true
  | _ => false

/-- A call in this phase is executing `forward` in the worker thread. -/
def isComputing : Phase → Bool
  | Phase.computing => true
  | _ => false

/-- Number of calls currently holding a permit. -/
def holders (s : RState) : Nat := s.calls.countP holdsPermit

/-- Number of calls currently executing their computation step. -/
def computingCount (s : RState) : Nat := s.calls.countP isComputing

lemma countP_set_eq (p : Phase → Bool) (l : List Phase) (i : Nat) (a b : Phase)
    (h : l[i]? = some b) :
    (l.set i a).countP p + (if p b then 1 else 0)
      = l.countP p + (if p a then 1 else 0) := by
  obtain ⟨hlt, hval⟩ := List.getElem?_eq_some_iff.mp h
  have hc := List.countP_set p l i a hlt
  have hb : 0 < l.countP p ∨ p b = false := by
    cases hpb : p b with
    | false => exact Or.inr rfl
    | true =>
      left
      have hmem : b ∈ l := hval ▸ List.getElem_mem hlt
      exact List.countP_pos_iff.mpr ⟨b, hmem, hpb⟩
  rw [hval] at hc
  rcases hb with hb | hb
  · cases hpb : p b <;> cases hpa : p a <;> simp [hpb, hpa] at hc ⊢ <;> omega
  · simp [hb] at hc ⊢
    cases hpa : p a <;> simp [hpa] at hc ⊢ <;> omega

/-- Gate invariant: free permits plus held permits always equal the limit
the gate was initialized with. -/
lemma reach_sem_inv {N M : Nat} {s : RState}
    (h : Reach (initState N M) s) : s.semAvail + holders s = N := by
  induction h with
  | refl => simp [initState, holders, List.countP_replicate, holdsPermit]
  | tail i hr st ih =>
    cases st with
    | acquire _ hj hsem =>
      have hc := countP_set_eq holdsPermit _ i Phase.hasPermit Phase.ready hj
      simp [holdsPermit] at hc
      simp only [holders] at ih ⊢
      omega
    | dispatch _ hj =>
      have hc := countP_set_eq holdsPermit _ i Phase.computing Phase.hasPermit hj
      simp [holdsPermit] at hc
      simp only [holders] at ih ⊢
      omega
    | finish _ ok hj =>
      have hc := countP_set_eq holdsPermit _ i (Phase.finished ok) Phase.computing hj
      simp [holdsPermit] at hc
      simp only [holders] at ih ⊢
      omega
    | release _ ok hj =>
      have hc := countP_set_eq holdsPermit _ i (Phase.done ok) (Phase.finished ok) hj
      simp [holdsPermit] at hc
      simp only [holders] at ih ⊢
      omega

/-- The counter is never negative in any reachable state. -/
lemma reach_count_nonneg {N M : Nat} {s : RState}
    (h : Reach (initState N M) s) : 0 ≤ s.count := by
  induction h with
  | refl => simp [initState]
  | tail i hr st ih =>
    cases st with
    | acquire _ hj hsem => exact ih
    | dispatch _ hj => exact ih
    | finish _ ok hj => exact le_max_left 0 _
    | release _ ok hj => exact ih

/-- A concrete interleaving used below: limit 1, two calls; call 0 acquires
the sole permit and dispatches its computation, call 1 still waiting. -/
lemma reach_computing_two :
    Reach (initState 1 2) ⟨0, 0, [Phase.computing, Phase.ready]⟩ := by
  have h₁ : Step 0 (initState 1 2) ⟨0, 0, [Phase.hasPermit, Phase.ready]⟩ :=
    Step.acquire 0 rfl (by decide)
  have h₂ : Step 0 (⟨0, 0, [Phase.hasPermit, Phase.ready]⟩ : RState)
      ⟨0, 0, [Phase.computing, Phase.ready]⟩ :=
    Step.dispatch 0 rfl
  exact Reach.tail 0 (Reach.tail 0 Reach.refl h₁) h₂

/-- C1: for every limit N ≥ 1 and M > N simultaneous infer calls on a
loaded runtime, the number of calls executing `forward` never exceeds N,
the number of permits the semaphore was initialized with. -/
theorem infer_concurrency_bounded (N M : Nat) (hN : 1 ≤ N) (hM : N < M)
    (s : RState) (hs : Reach (initState N M) s) : computingCount s ≤ N := by
  have hinv := reach_sem_inv hs
  have hmono : computingCount s ≤ holders s := by
    apply List.countP_mono_left
    intro a _ ha
    cases a <;> simp_all [isComputing, holdsPermit]
  omega

/-- Witness for C1 at N = 1, M = 2, in a reachable state with one call
mid-computation. -/
theorem infer_concurrency_bounded_witness :
    1 ≤ 1 ∧ 1 < 2 ∧ computingCount ⟨0, 0, [Phase.computing, Phase.ready]⟩ ≤ 1 :=
  ⟨by decide, by decide,
    infer_concurrency_bounded 1 2 (by decide) (by decide) _ reach_computing_two⟩

/-- C2: the source never increments `concurrent_count`. In the reachable
state where one computation is in flight, the counter still reads 0, so it
does not reflect the number of in-flight computations (the claimed
increment after permit acquisition does not exist in the code). -/
theorem concurrent_count_never_incremented :
    Reach (initState 1 2) ⟨0, 0, [Phase.computing, Phase.ready]⟩ ∧
    computingCount ⟨0, 0, [Phase.computing, Phase.ready]⟩ = 1 ∧
    (⟨0, 0, [Phase.computing, Phase.ready]⟩ : RState).count = 0 :=
  ⟨reach_computing_two, by decide, rfl⟩

/-- C3: the counter starts at 0 on load and never takes a negative value in
any reachable state, every decrement being clamped at zero. -/
theorem concurrent_count_nonneg (N M : Nat) (s : RState)
    (hs : Reach (initState N M) s) :
    (initState N M).count = 0 ∧ 0 ≤ s.count :=
  ⟨rfl, reach_count_nonneg hs⟩

/-- Witness for C3 at N = 1, M = 2 in the initial state. -/
theorem concurrent_count_nonneg_witness :
    (initState 1 2).count = 0 ∧ 0 ≤ (initState 1 2).count :=
  concurrent_count_nonneg 1 2 (initState 1 2) Reach.refl

/-- C4: when a call's computation fails, the step that ends the computation
performs the clamped decrement of the counter, and the only step the call
can take afterwards releases its permit back to the gate and completes the
call as failed — the fault is propagated to the caller, never swallowed. -/
theorem failed_inference_releases_permit (N M i : Nat) (s₁ s₂ s₃ : RState)
    (hreach : Reach (initState N M) s₁)
    (h₁ : s₁.calls[i]? = some Phase.computing)
    (st₁ : Step i s₁ s₂)
    (h₂ : s₂.calls[i]? = some (Phase.finished false))
    (st₂ : Step i s₂ s₃) :
    s₂.count = max 0 (s₁.count - 1) ∧
    s₃.semAvail = s₂.semAvail + 1 ∧
    s₃.calls[i]? = some (Phase.done false) := by
  cases st₁ with
  | acquire _ hj hsem => rw [h₁] at hj; exact absurd hj (by simp)
  | dispatch _ hj => rw [h₁] at hj; exact absurd hj (by simp)
  | release _ ok hj => rw [h₁] at hj; exact absurd hj (by simp)
  | finish _ ok hj =>
    obtain ⟨hlt, hval⟩ := List.getElem?_eq_some_iff.mp hj
    have hset : (s₁.calls.set i (Phase.finished ok))[i]? = some (Phase.finished ok) :=
      List.getElem?_set_self (by simpa using hlt)
    have hok : ok = false := by
      have h := hset.symm.trans h₂
      simpa using h
    subst hok
    refine ⟨rfl, ?_⟩
    cases st₂ with
    | acquire _ hk hsem => exact absurd (hset.symm.trans hk) (by simp)
    | dispatch _ hk => exact absurd (hset.symm.trans hk) (by simp)
    | finish _ ok₂ hk => exact absurd (hset.symm.trans hk) (by simp)
    | release _ ok₂ hk =>
      have hok₂ : ok₂ = false := by
        have h := hset.symm.trans hk
        simpa using h
      subst hok₂
      refine ⟨rfl, ?_⟩
      exact List.getElem?_set_self (by simpa using hlt)

/-- Witness for C4: limit 1, two calls, call 0 fails its computation; the
decrement, the permit release and the failed completion all happen as the
theorem states. -/
theorem failed_inference_releases_permit_witness :
    (⟨0, 0, [Phase.finished false, Phase.ready]⟩ : RState).count =
        max 0 ((⟨0, 0, [Phase.computing, Phase.ready]⟩ : RState).count - 1) ∧
    (⟨1, 0, [Phase.done false, Phase.ready]⟩ : RState).semAvail =
        (⟨0, 0, [Phase.finished false, Phase.ready]⟩ : RState).semAvail + 1 ∧
    (⟨1, 0, [Phase.done false, Phase.ready]⟩ : RState).calls[0]? =
        some (Phase.done false) := by
  have st₁ : Step 0 (⟨0, 0, [Phase.computing, Phase.ready]⟩ : RState)
      ⟨0, 0, [Phase.finished false, Phase.ready]⟩ := Step.finish 0 false rfl
  have st₂ : Step 0 (⟨0, 0, [Phase.finished false, Phase.ready]⟩ : RState)
      ⟨1, 0, [Phase.done false, Phase.ready]⟩ := Step.release 0 false rfl
  exact failed_inference_releases_permit 1 2 0 _ _ _
    reach_computing_two rfl st₁ rfl st₂


/-! ## Python string model

Python `str` values are sequences of unicode code points; comparison,
`startswith`/`endswith` and `str.replace` operate on code points. Keys and
paths are Lean `String`s and the Python operations are defined on their
character lists. -/

/-- Python string `<=`: code-point lexicographic comparison, as used by
`sorted` on `str` values. -/
def charsLe : List Char → List Char → Bool
  | [], _ => true
  | _ :: _, [] => false
  | a :: as, b :: bs =>
    if a.toNat < b.toNat then true
    else if b.toNat < a.toNat then false
    else charsLe as bs

/-- Python `a <= b` on strings. -/
def pyLe (a b : String) : Bool := charsLe a.data b.data

/-- The ordering relation of Python `sorted` on strings, as a proposition. -/
def PyLeR (a b : String) : Prop := pyLe a b = true

instance (a b : String) : Decidable (PyLeR a b) :=
  inferInstanceAs (Decidable (pyLe a b = true))

lemma charsLe_refl : ∀ as : List Char, charsLe as as = true
  | [] => rfl
  | a :: as => by simp [charsLe, charsLe_refl as]

lemma charsLe_total : ∀ as bs : List Char, charsLe as bs = true ∨ charsLe bs as = true
  | [], _ => Or.inl rfl
  | _ :: _, [] => Or.inr rfl
  | a :: as, b :: bs => by
    rcases Nat.lt_trichotomy a.toNat b.toNat with h | h | h
    · exact Or.inl (by simp [charsLe, h])
    · rcases charsLe_total as bs with ih | ih
      · exact Or.inl (by simp [charsLe, h, ih])
      · exact Or.inr (by simp [charsLe, h, ih])
    · exact Or.inr (by simp [charsLe, h])

lemma charsLe_trans : ∀ as bs cs : List Char,
    charsLe as bs = true → charsLe bs cs = true → charsLe as cs = true
  | [], _, _, _, _ => rfl
  | _ :: _, [], _, h, _ => by simp [charsLe] at h
  | _ :: _, _ :: _, [], _, h => by simp [charsLe] at h
  | a :: as, b :: bs, c :: cs, hab, hbc => by
    simp only [charsLe] at hab hbc ⊢
    by_cases h₁ : a.toNat < b.toNat <;> by_cases h₂ : b.toNat < c.toNat
    · simp [Nat.lt_trans h₁ h₂]
    · have hcb : ¬ c.toNat < b.toNat := by
        by_contra hc
        simp [h₂, hc] at hbc
      simp [show a.toNat < c.toNat by omega]
    · have hba : ¬ b.toNat < a.toNat := by
        by_contra hc
        simp [h₁, hc] at hab
      simp [show a.toNat < c.toNat by omega]
    · have hba : ¬ b.toNat < a.toNat := by
        by_contra hc
        simp [h₁, hc] at hab
      have hcb : ¬ c.toNat < b.toNat := by
        by_contra hc
        simp [h₂, hc] at hbc
      simp only [h₁, hba, if_false] at hab
      simp only [h₂, hcb, if_false] at hbc
      by_cases h₃ : a.toNat < c.toNat
      · simp [h₃]
      · have h₄ : ¬ c.toNat < a.toNat := by omega
        simp [h₃, h₄, charsLe_trans as bs cs hab hbc]

instance : IsTotal String PyLeR := ⟨fun a b => charsLe_total a.data b.data⟩

instance : IsTrans String PyLeR := ⟨fun a b c => charsLe_trans a.data b.data c.data⟩

/-- Python `s.startswith(pat)`. -/
def pyStartsWith (s pat : String) : Bool := pat.data.isPrefixOf s.data

/-- Python `s.endswith(pat)`. -/
def pyEndsWith (s pat : String) : Bool := pat.data.isSuffixOf s.data

/-- Python `s.replace(pat, rep)` on character lists: scan left to right,
replacing every non-overlapping occurrence of `pat`. Recursion is on a fuel
bounded below by the length of `s`; every use site passes a non-empty
`pat`, for which the fuel suffices. -/
def replaceChars (pat rep : List Char) : Nat → List Char → List Char
  | _, [] => []
  | 0, s => s
  | fuel + 1, c :: cs =>
    if pat.isPrefixOf (c :: cs) then
      rep ++ replaceChars pat rep fuel (List.drop pat.length (c :: cs))
    else
      c :: replaceChars pat rep fuel cs

/-- Python `s.replace(pat, rep)`. -/
def pyReplace (pat rep s : String) : String :=
  String.mk (replaceChars pat.data rep.data s.data.length s.data)

lemma replaceChars_of_no_occurrence (pat rep : List Char) :
    ∀ (fuel : Nat) (s : List Char), ¬ pat <:+: s → replaceChars pat rep fuel s = s
  | fuel, [], _ => by cases fuel <;> rfl
  | 0, _ :: _, _ => rfl
  | fuel + 1, c :: cs, h => by
    have hp : pat.isPrefixOf (c :: cs) = false := by
      cases hp : pat.isPrefixOf (c :: cs) with
      | false => rfl
      | true =>
        have hpre := List.isPrefixOf_iff_prefix.mp hp
        exact absurd hpre.isInfix h
    have hcs : ¬ pat <:+: cs := fun hinf => h ( List.infix_cons hinf)
    simp [replaceChars, hp, replaceChars_of_no_occurrence pat rep fuel cs hcs]

lemma replaceChars_strip (pat rep r : List Char) (hne : pat ≠ [])
    (hnr : ¬ pat <:+: r) :
    ∀ fuel, 1 ≤ fuel → replaceChars pat rep fuel (pat ++ r) = rep ++ r := by
  intro fuel hfuel
  rcases pat with _ | ⟨p, ps⟩
  · exact absurd rfl hne
  rcases fuel with _ | fuel
  · omega
  have hp : (p :: ps).isPrefixOf (p :: (ps ++ r)) = true :=
    List.isPrefixOf_iff_prefix.mpr ⟨r, by simp⟩
  have hd : List.drop (p :: ps).length (p :: (ps ++ r)) = r := by
    simpa using List.drop_left (p :: ps) r
  show replaceChars (p :: ps) rep (fuel + 1) (p :: (ps ++ r)) = rep ++ r
  simp only [replaceChars, hp, if_true, hd,
    replaceChars_of_no_occurrence (p :: ps) rep fuel r hnr]

/-- Base prefix stripping as `s3_module.py` performs it: Python
`f.replace(base_dir + "/", "")` removes every occurrence. When
`base_dir ++ "/"` occurs in the key only at the front, this strips exactly
the front prefix. -/
lemma pyReplace_front_strip (base r : String)
    (hnr : ¬ (base ++ "/").data <:+: r.data) :
    pyReplace (base ++ "/") "" (base ++ "/" ++ r) = r := by
  have hdata : (base ++ "/" ++ r).data = (base ++ "/").data ++ r.data := by
    simp [String.data_append]
  have hne : (base ++ "/").data ≠ [] := by
    simp [String.data_append]
  have hfuel : 1 ≤ ((base ++ "/").data ++ r.data).length := by
    rcases h : (base ++ "/").data with _ | _
    · exact absurd h hne
    · simp
  show String.mk _ = r
  rw [hdata, replaceChars_strip _ _ _ hne hnr _ hfuel]
  rfl


/-! ## S3 artifact layer (s3_module.py, models/errors.py)

An `S3Module` is constructed with bucket, base object path (`base_dir`,
already right-stripped of slashes), region and local directory; only
`base_dir` affects the pure logic below. Network effects are modelled by
passing the provider listing (the pages produced by the `list_objects_v2`
paginator; a page whose `Contents` entry is absent is the empty page) or
the outcome of a transfer as arguments. -/

/-- Error taxonomy: the typed errors of models/errors.py together with the
Python built-in exceptions the module can raise. -/
inductive PyError where
  | valueError (message : String)
  | s3DownloadError (message : String) (s3Path : String)
  | s3ListError (message : String) (s3Bucket : String) (s3BaseObjectPath : String)
  | fileNotFoundError (message : String)
  | unboundLocalError (name : String)
deriving DecidableEq

/-- Python `str(e)` on the exceptions above: each class passes its message
to `Exception.__init__`. -/
def pyStr : PyError → String
  | PyError.valueError m => m
  | PyError.s3DownloadError m _ => m
  | PyError.s3ListError m _ _ => m
  | PyError.fileNotFoundError m => m
  | PyError.unboundLocalError n =>
      "cannot access local variable " ++ n ++ " where it is not associated with a value"

/-- One object of a listing page: its key and its LastModified timestamp
(datetimes modelled as naturals, ordered as Python compares them). -/
structure S3Object where
  key : String
  lastModified : Nat
deriving DecidableEq

/-- S3Module.list_files: the paginate loop extends `files` with the keys of
each page's `Contents` in provider order, then strips the base path with
`f.replace(base_dir + "/", "")` (Python replace removes every occurrence,
not only a front prefix). -/
def list_files (base_dir : String) (pages : List (List String)) : List String :=
  let files := pages.flatten
  files.map (fun f => pyReplace (base_dir ++ "/") "" f)

/-- Modelled from the spec: the transformation C8 claims the listing
performs — exactly the common base-path prefix is stripped from the front
of every key and the rest of the key is left unchanged. Stated for
comparison with `list_files`; the source uses `str.replace` instead. -/
def stripFront (base_dir k : String) : String :=
  if (base_dir ++ "/").data.isPrefixOf k.data then
    String.mk (k.data.drop (base_dir ++ "/").data.length)
  else k

/-- One iteration of the S3Module.get_latest_version loop body: keep the
running `(latest_file, latest_time)` unless this object's LastModified is
strictly greater (or nothing has been seen yet). -/
def scanStep (acc : Option (String × Nat)) (o : S3Object) : Option (String × Nat) :=
  match acc with
  | none => some (o.key, o.lastModified)
  | some (k, t) => if o.lastModified > t then some (o.key, o.lastModified) else some (k, t)

/-- S3Module.get_latest_version: fold the loop body over all objects of all
pages in provider order; `if latest_file:` is Python truthiness, so both
`None` and the empty string map to `None`; otherwise the base path is
stripped with `str.replace` as in `list_files`. -/
def get_latest_version (base_dir : String) (pages : List (List S3Object)) : Option String :=
  match pages.flatten.foldl scanStep none with
  | none => none
  | some (k, _) => if k = "" then none else some (pyReplace (base_dir ++ "/") "" k)

/-- C8 (amended): the listing is the in-order concatenation of the pages
with every occurrence of the base path followed by a slash removed from
each key; whenever that pattern occurs in a key only as its front prefix,
the transformation strips exactly the front prefix and leaves the rest
unchanged; two pages of 2 and 3 keys yield the 5 stripped keys in provider
order. -/
theorem list_files_concat_and_strip (base_dir : String) (pages : List (List String)) :
    list_files base_dir pages =
      (pages.map (fun page => page.map (fun f => pyReplace (base_dir ++ "/") "" f))).flatten ∧
    (∀ k r, k = base_dir ++ "/" ++ r → ¬ (base_dir ++ "/").data <:+: r.data →
      pyReplace (base_dir ++ "/") "" k = r) ∧
    list_files "models/avatar"
      [["models/avatar/v1/a.pt", "models/avatar/v1/b.pt"],
       ["models/avatar/v2/c.pt", "models/avatar/v2/d.pt", "models/avatar/v2/e.pt"]] =
      ["v1/a.pt", "v1/b.pt", "v2/c.pt", "v2/d.pt", "v2/e.pt"] := by
  refine ⟨?_, ?_, by decide⟩
  · simp [list_files, List.map_flatten]
  · intro k r hk hnr
    exact hk ▸ pyReplace_front_strip base_dir r hnr

/-- Witness for the amended C8 at a concrete key with no interior
occurrence of the base path. -/
theorem list_files_concat_and_strip_witness :
    pyReplace ("models" ++ "/") "" ("models" ++ "/" ++ "v1/x.pt") = "v1/x.pt" :=
  (list_files_concat_and_strip "models" []).2.1
    ("models" ++ "/" ++ "v1/x.pt") "v1/x.pt" rfl (by decide)

/-- Counterexample to C8 as stated: for base path `a`, the provider key
`a/a/b` (which does start with the base prefix `a/`) is mapped to `b`,
because `str.replace` also removes the interior occurrence of `a/`; the
claimed front-prefix stripping would yield `a/b`. -/
theorem list_files_not_front_strip :
    list_files "a" [["a/a/b"]] = ["b"] ∧
    ([["a/a/b"]] : List (List String)).flatten.map (stripFront "a") = ["a/b"] ∧
    list_files "a" [["a/a/b"]] ≠ ([["a/a/b"]] : List (List String)).flatten.map (stripFront "a") :=
  ⟨by decide, by decide, by decide⟩


/-- Characterization of the get_latest_version loop: folding the loop body
over `l` starting from a seen object `o₀` lands on an element of
`o₀ :: l` that every earlier element is strictly below and every later
element is at most equal to — the maximum with first-encountered tie-break,
since only a strictly greater LastModified replaces the running maximum. -/
lemma scan_characterization : ∀ (l : List S3Object) (o₀ : S3Object),
    ∃ l₁ o l₂, o₀ :: l = l₁ ++ o :: l₂ ∧
      l.foldl scanStep (some (o₀.key, o₀.lastModified)) = some (o.key, o.lastModified) ∧
      (∀ q ∈ l₁, q.lastModified < o.lastModified) ∧
      (∀ q ∈ l₂, q.lastModified ≤ o.lastModified)
  | [], o₀ => ⟨[], o₀, [], rfl, rfl, by simp, by simp⟩
  | b :: rest, o₀ => by
    by_cases hgt : b.lastModified > o₀.lastModified
    · obtain ⟨l₁, o, l₂, hsplit, hfold, hlt, hle⟩ := scan_characterization rest b
      have hstep : scanStep (some (o₀.key, o₀.lastModified)) b =
          some (b.key, b.lastModified) := by
        simp [scanStep, hgt]
      have hfold' : (b :: rest).foldl scanStep (some (o₀.key, o₀.lastModified)) =
          some (o.key, o.lastModified) := by
        rw [List.foldl_cons, hstep]; exact hfold
      have hble : b.lastModified ≤ o.lastModified := by
        rcases l₁ with _ | ⟨x, l₁t⟩
        · injection hsplit with h1 h2
          subst h1
          exact le_refl _
        · injection hsplit with h1 h2
          subst h1
          exact le_of_lt (hlt b (List.mem_cons_self _ _))
      refine ⟨o₀ :: l₁, o, l₂, by rw [List.cons_append, ← hsplit], hfold', ?_, hle⟩
      intro q hq
      rcases List.mem_cons.mp hq with h | h
      · subst h; omega
      · exact hlt q h
    · obtain ⟨l₁, o, l₂, hsplit, hfold, hlt, hle⟩ := scan_characterization rest o₀
      have hstep : scanStep (some (o₀.key, o₀.lastModified)) b =
          some (o₀.key, o₀.lastModified) := by
        simp [scanStep, hgt]
      have hfold' : (b :: rest).foldl scanStep (some (o₀.key, o₀.lastModified)) =
          some (o.key, o.lastModified) := by
        rw [List.foldl_cons, hstep]; exact hfold
      rcases l₁ with _ | ⟨x, l₁t⟩
      · injection hsplit with h1 h2
        subst h1
        refine ⟨[], o₀, b :: l₂, by simp [h2], hfold', by simp, ?_⟩
        intro q hq
        rcases List.mem_cons.mp hq with h | h
        · subst h; omega
        · exact hle q h
      · injection hsplit with h1 h2
        subst h1
        refine ⟨o₀ :: b :: l₁t, o, l₂, by simp [h2], hfold', ?_, hle⟩
        have ho₀ : o₀.lastModified < o.lastModified :=
          hlt o₀ (List.mem_cons_self _ _)
        intro q hq
        rcases List.mem_cons.mp hq with h | h
        · subst h; exact ho₀
        · rcases List.mem_cons.mp h with h | h
          · subst h; omega
          · exact hlt q (List.mem_cons_of_mem _ h)

/-- C5: get_latest_version returns `None` on an empty listing; on a
non-empty listing (whose keys, having the base path as a prefix, are
non-empty strings) it returns the base-stripped key of the object with the
greatest LastModified, where only a strictly greater timestamp replaces
the running maximum, so every object encountered earlier is strictly below
it and the first of the maximal objects wins. -/
theorem get_latest_version_selects_max (base_dir : String) (pages : List (List S3Object)) :
    (pages.flatten = [] → get_latest_version base_dir pages = none) ∧
    (pages.flatten ≠ [] → (∀ o ∈ pages.flatten, o.key ≠ "") →
      ∃ l₁ o l₂, pages.flatten = l₁ ++ o :: l₂ ∧
        get_latest_version base_dir pages = some (pyReplace (base_dir ++ "/") "" o.key) ∧
        (∀ q ∈ l₁, q.lastModified < o.lastModified) ∧
        (∀ q ∈ pages.flatten, q.lastModified ≤ o.lastModified)) := by
  constructor
  · intro h
    simp [get_latest_version, h]
  · intro hne hkeys
    rcases hflat : pages.flatten with _ | ⟨o₀, rest⟩
    · exact absurd hflat hne
    obtain ⟨l₁, o, l₂, hsplit, hfold, hlt, hle⟩ := scan_characterization rest o₀
    have homem : o ∈ pages.flatten := by
      rw [hflat, hsplit]
      exact List.mem_append_right _ (List.mem_cons_self _ _)
    have hkey : o.key ≠ "" := hkeys o homem
    rw [hflat] at hkeys
    refine ⟨l₁, o, l₂, hsplit, ?_, hlt, ?_⟩
    · unfold get_latest_version
      rw [hflat, List.foldl_cons]
      have hstep : scanStep none o₀ = some (o₀.key, o₀.lastModified) := rfl
      rw [hstep, hfold]
      simp [hkey]
    · intro q hq
      rw [hsplit] at hq
      rcases List.mem_append.mp hq with h | h
      · exact le_of_lt (hlt q h)
      · rcases List.mem_cons.mp h with h | h
        · subst h; exact le_refl _
        · exact hle q h

/-- Witness for C5: three objects with timestamps 5, 7, 7; the returned
key belongs to the first object carrying the maximal timestamp 7. -/
theorem get_latest_version_selects_max_witness :
    ∃ l₁ o l₂,
      ([[⟨"m/a", 5⟩], [⟨"m/b", 7⟩, ⟨"m/c", 7⟩]] : List (List S3Object)).flatten =
        l₁ ++ o :: l₂ ∧
      get_latest_version "m" [[⟨"m/a", 5⟩], [⟨"m/b", 7⟩, ⟨"m/c", 7⟩]] =
        some (pyReplace ("m" ++ "/") "" o.key) ∧
      (∀ q ∈ l₁, q.lastModified < o.lastModified) ∧
      (∀ q ∈ ([[⟨"m/a", 5⟩], [⟨"m/b", 7⟩, ⟨"m/c", 7⟩]] : List (List S3Object)).flatten,
        q.lastModified ≤ o.lastModified) :=
  (get_latest_version_selects_max "m" _).2 (by decide) (by decide)


/-- S3Module.download_version, selection part: compute
`version_prefix = "v" + version`, filter the (base-stripped) listed keys to
those that start with it, return `None` when nothing matches, otherwise
`sorted(model_files)[-1]`, the last element of the ascending Python sort —
a literal code-point string comparison, not a numeric one. -/
def select_version_file (files : List String) (version : String) : Option String :=
  let model_files := files.filter (fun f => pyStartsWith f ("v" ++ version))
  if model_files = [] then none
  else (List.insertionSort PyLeR model_files).getLast?

/-- Fixed allow-list of model file extensions in
BaseModelModule.download_model. -/
def model_extensions : List String := [".pth", ".pt", ".bin", ".safetensors"]

/-- BaseModelModule.download_model, validation part: `local_path` is the
value returned by download_latest/download_version (`None` when nothing was
found; `if not local_path:` is Python truthiness, so the empty string also
fails); a present path must end with one of the allowed extensions or a
`ValueError` is raised. -/
def download_model (model_name version : String) (local_path : Option String) :
    Except PyError String :=
  match local_path with
  | none =>
      Except.error (PyError.valueError
        ("No model file found for " ++ model_name ++ " version " ++ version))
  | some p =>
      if p = "" then
        Except.error (PyError.valueError
          ("No model file found for " ++ model_name ++ " version " ++ version))
      else if model_extensions.any (fun e => pyEndsWith p e) then
        Except.ok p
      else
        Except.error (PyError.valueError
          ("Downloaded file is not a valid model file: " ++ p))

lemma mem_of_getLast?_eq : ∀ {l : List String} {m : String},
    l.getLast? = some m → m ∈ l
  | [], _, h => by simp at h
  | [a], m, h => by
    simp at h
    simp [h]
  | _ :: b :: t, m, h => by
    rw [List.getLast?_cons_cons] at h
    exact List.mem_cons_of_mem _ (mem_of_getLast?_eq h)

lemma pairwise_getLast_ub : ∀ {l : List String} {m : String},
    l.Pairwise PyLeR → l.getLast? = some m → ∀ x ∈ l, PyLeR x m
  | [], _, _, h => by simp at h
  | [a], m, _, h => by
    simp at h
    subst h
    intro x hx
    rw [List.mem_singleton] at hx
    subst hx
    exact charsLe_refl _
  | a :: b :: t, m, hp, h => by
    rw [List.getLast?_cons_cons] at h
    have hp' := List.pairwise_cons.mp hp
    have hmem : m ∈ b :: t := mem_of_getLast?_eq h
    intro x hx
    rcases List.mem_cons.mp hx with hx | hx
    · subst hx
      exact hp'.1 m hmem
    · exact pairwise_getLast_ub hp'.2 h x hx

/-- C6: explicit-tag resolution filters the listed keys to those starting
with `v` followed by the tag and picks the key that is greatest in the
literal code-point string order (every other match compares less-or-equal);
it signals no-match exactly when the filter is empty, which
download_model then turns into a `ValueError`; and on
`["v1/model.pt", "v2/model.bin", "v10/model.pt"]` with tag `2` it picks
`v2/model.bin`, a lexicographic rather than numeric selection. -/
theorem download_version_selects_lex_max (files : List String) (version : String) :
    (select_version_file files version = none ↔
      files.filter (fun f => pyStartsWith f ("v" ++ version)) = []) ∧
    (∀ k, select_version_file files version = some k →
      k ∈ files.filter (fun f => pyStartsWith f ("v" ++ version)) ∧
      ∀ m ∈ files.filter (fun f => pyStartsWith f ("v" ++ version)), PyLeR m k) ∧
    (∀ name, download_model name version none = Except.error (PyError.valueError
      ("No model file found for " ++ name ++ " version " ++ version))) ∧
    select_version_file ["v1/model.pt", "v2/model.bin", "v10/model.pt"] "2" =
      some "v2/model.bin" := by
  refine ⟨⟨?_, ?_⟩, ?_, fun name => rfl, by decide⟩
  · intro h
    by_contra hne
    unfold select_version_file at h
    simp only [if_neg hne] at h
    have hperm := List.perm_insertionSort PyLeR
      (files.filter (fun f => pyStartsWith f ("v" ++ version)))
    rw [List.getLast?_eq_none_iff] at h
    rw [h] at hperm
    exact hne hperm.nil_eq.symm
  · intro h
    unfold select_version_file
    simp [h]
  · intro k hk
    unfold select_version_file at hk
    by_cases hne : files.filter (fun f => pyStartsWith f ("v" ++ version)) = []
    · simp [hne] at hk
    · simp only [if_neg hne] at hk
      have hperm := List.perm_insertionSort PyLeR
        (files.filter (fun f => pyStartsWith f ("v" ++ version)))
      have hsorted := List.sorted_insertionSort PyLeR
        (files.filter (fun f => pyStartsWith f ("v" ++ version)))
      refine ⟨hperm.mem_iff.mp (mem_of_getLast?_eq hk), ?_⟩
      intro m hm
      exact pairwise_getLast_ub hsorted hk m (hperm.mem_iff.mpr hm)

/-- Witness for C6: the selected key for tag 2 is a member of the filtered
keys and all matches compare less-or-equal to it. -/
theorem download_version_selects_lex_max_witness :
    "v2/model.bin" ∈
      (["v1/model.pt", "v2/model.bin", "v10/model.pt"] : List String).filter
        (fun f => pyStartsWith f ("v" ++ "2")) ∧
    ∀ m ∈ (["v1/model.pt", "v2/model.bin", "v10/model.pt"] : List String).filter
        (fun f => pyStartsWith f ("v" ++ "2")), PyLeR m "v2/model.bin" :=
  (download_version_selects_lex_max
    ["v1/model.pt", "v2/model.bin", "v10/model.pt"] "2").2.1
    "v2/model.bin" (by decide)

/-- C7: whatever the resolution produced, a path is returned to the caller
only when it carries one of the fixed allowed extensions, and a non-empty
downloaded path with an unrecognized extension always fails with a
`ValueError`. -/
theorem download_model_validates_extension (model_name version : String) :
    (∀ lp p, download_model model_name version lp = Except.ok p →
      lp = some p ∧ model_extensions.any (fun e => pyEndsWith p e) = true) ∧
    (∀ p, p ≠ "" → model_extensions.any (fun e => pyEndsWith p e) = false →
      download_model model_name version (some p) = Except.error (PyError.valueError
        ("Downloaded file is not a valid model file: " ++ p))) := by
  constructor
  · intro lp p h
    match lp with
    | none => exact absurd h (by simp [download_model])
    | some q =>
      unfold download_model at h
      by_cases hq : q = ""
      · simp [hq] at h
      · simp only [if_neg hq] at h
        by_cases hext : model_extensions.any (fun e => pyEndsWith q e)
        · simp only [hext, if_true, Except.ok.injEq] at h
          subst h
          exact ⟨rfl, hext⟩
        · simp [hext] at h
  · intro p hp hext
    unfold download_model
    simp [hp, hext]

/-- Witness for C7: a `.pt` path passes validation and is returned as-is;
a `.txt` path fails with the validation error. -/
theorem download_model_validates_extension_witness :
    (some "/app/models/landmark/latest/model.pt" =
        some "/app/models/landmark/latest/model.pt" ∧
      model_extensions.any
        (fun e => pyEndsWith "/app/models/landmark/latest/model.pt" e) = true) ∧
    download_model "landmark" "latest" (some "notes.txt") =
      Except.error (PyError.valueError
        ("Downloaded file is not a valid model file: " ++ "notes.txt")) :=
  ⟨(download_model_validates_extension "landmark" "latest").1
      (some "/app/models/landmark/latest/model.pt")
      "/app/models/landmark/latest/model.pt" (by rfl),
    (download_model_validates_extension "landmark" "latest").2
      "notes.txt" (by decide) (by decide)⟩


/-- S3Module.download_version, full control flow. `listResult` is the
outcome of the `list_files()` call and `downloadResult` the outcome of
`download_to_local` on the selected key. In the source, the local variable
`version_prefix` is assigned only after `list_files()` returns inside the
`try` block, while the `except` handler interpolates it into the
`S3DownloadError` key context; Python evaluates the handler under the
actual local scope, so when `list_files` raises, the handler reads a name
that is not yet bound and itself raises `UnboundLocalError` instead of the
typed error. The embedding reflects the local-scope semantics: on a
listing failure the handler's f-string evaluation faults. -/
def download_version (base_dir model_name version : String)
    (listResult : Except PyError (List String))
    (downloadResult : String → Except PyError String) :
    Except PyError (Option String) :=
  match listResult with
  | Except.error _ =>
      Except.error (PyError.unboundLocalError "version_prefix")
  | Except.ok files =>
      match select_version_file files version with
      | none => Except.ok none
      | some latest_file =>
          match downloadResult latest_file with
          | Except.ok local_path => Except.ok (some local_path)
          | Except.error e =>
              Except.error (PyError.s3DownloadError
                ("Failed to download version " ++ version ++ " of " ++ model_name
                  ++ ": " ++ pyStr e)
                (base_dir ++ "/v" ++ version))

/-- C9 at its failing input: when the initial listing step raises (here an
`S3ListError` from the paginator), download_version does not surface
the typed `S3DownloadError` with bucket/prefix/key context that its own
handler spells out — it escapes with `UnboundLocalError` on
`version_prefix`, an untyped, unintended exception. A download-step
failure, by contrast, is wrapped as the typed error. -/
theorem download_version_listing_failure_untyped :
    download_version "models/avatar" "landmark" "2"
      (Except.error (PyError.s3ListError "connection reset" "bucket" "models/avatar"))
      (fun f => Except.ok ("/app/models/" ++ f)) =
      Except.error (PyError.unboundLocalError "version_prefix") ∧
    download_version "models/avatar" "landmark" "2"
      (Except.ok ["v2/model.bin"])
      (fun _ => Except.error (PyError.s3DownloadError "timeout" "models/avatar/v2/model.bin")) =
      Except.error (PyError.s3DownloadError
        ("Failed to download version " ++ "2" ++ " of " ++ "landmark" ++ ": " ++ "timeout")
        ("models/avatar" ++ "/v" ++ "2")) :=
  ⟨rfl, by rfl⟩

/-! ## Upload path (s3_module.py) -/

/-- Python `Path(p).name`: the component after the last slash (pathlib's
trailing-slash normalization is not modelled; no property below depends on
it). -/
def pathName (p : String) : String :=
  String.mk (p.data.foldl (fun acc c => if c = '/' then [] else acc ++ [c]) [])

/-- S3Module.upload_to_s3: raise `FileNotFoundError` when the local file is
absent; otherwise resolve the remote name as
`s3_filename or local_path.name` (Python `or`: the fallback is used when
the given name is `None` or empty), build `s3_path = base_dir + "/" + name`
and attempt the transfer (`putResult`, the outcome of
`s3_client.upload_file`); a transfer fault is wrapped into
`S3DownloadError` carrying the attempted path. -/
def upload_to_s3 (fsExists : String → Bool)
    (putResult : String → String → Except String Unit)
    (base_dir : String) (local_path : String) (s3_filename : Option String) :
    Except PyError String :=
  if fsExists local_path = false then
    Except.error (PyError.fileNotFoundError ("Local file not found: " ++ local_path))
  else
    let name := match s3_filename with
      | none => pathName local_path
      | some n => if n = "" then pathName local_path else n
    let s3_path := base_dir ++ "/" ++ name
    match putResult local_path s3_path with
    | Except.ok _ => Except.ok s3_path
    | Except.error msg =>
        Except.error (PyError.s3DownloadError ("Failed to upload file: " ++ msg) s3_path)

/-- The `for local_path, s3_filename in zip(...)` loop of
S3Module.batch_upload: sequential uploads, first failure aborts,
successful keys accumulate in order. -/
def batch_upload_go (fsExists : String → Bool)
    (putResult : String → String → Except String Unit) (base_dir : String) :
    List (String × Option String) → Except PyError (List String)
  | [] => Except.ok []
  | (lp, fn) :: rest =>
      match upload_to_s3 fsExists putResult base_dir lp fn with
      | Except.error e => Except.error e
      | Except.ok k =>
          match batch_upload_go fsExists putResult base_dir rest with
          | Except.error e => Except.error e
          | Except.ok ks => Except.ok (k :: ks)

/-- S3Module.batch_upload:
`s3_filenames = s3_filenames or [None] * len(local_paths)` (Python `or`
takes the replicate fallback when the argument is `None` or the empty
list), then iterate over `zip(local_paths, s3_filenames)` — `zip` stops at
the shorter list. -/
def batch_upload (fsExists : String → Bool)
    (putResult : String → String → Except String Unit) (base_dir : String)
    (local_paths : List String) (s3_filenames : Option (List String)) :
    Except PyError (List String) :=
  let names : List (Option String) := match s3_filenames with
    | none => List.replicate local_paths.length none
    | some ns => if ns = [] then List.replicate local_paths.length none else ns.map some
  batch_upload_go fsExists putResult base_dir (local_paths.zip names)

lemma batch_upload_go_ok_length (fsExists : String → Bool)
    (putResult : String → String → Except String Unit) (base_dir : String) :
    ∀ (pairs : List (String × Option String)) (ks : List String),
      batch_upload_go fsExists putResult base_dir pairs = Except.ok ks →
      ks.length = pairs.length
  | [], ks, h => by
    simp only [batch_upload_go, Except.ok.injEq] at h
    subst h
    rfl
  | (lp, fn) :: rest, ks, h => by
    simp only [batch_upload_go] at h
    match hu : upload_to_s3 fsExists putResult base_dir lp fn with
    | Except.error e => rw [hu] at h; exact absurd h (by simp)
    | Except.ok k =>
      rw [hu] at h
      match hr : batch_upload_go fsExists putResult base_dir rest with
      | Except.error e => rw [hr] at h; exact absurd h (by simp)
      | Except.ok ks' =>
        rw [hr] at h
        have hk : ks = k :: ks' := by
          have h' : k :: ks' = ks := by simpa using h
          exact h'.symm
        subst hk
        simp [batch_upload_go_ok_length fsExists putResult base_dir rest ks' hr]

lemma zip_of_right_shorter : ∀ (l₁ : List String) (l₂ : List (Option String)),
    l₂.length ≤ l₁.length → l₁.zip l₂ = (l₁.take l₂.length).zip l₂
  | _, [], _ => by simp
  | [], _ :: _, h => by simp at h
  | a :: l₁, b :: l₂, h => by
    simp only [List.zip_cons_cons, List.length_cons, List.take_succ_cons]
    rw [zip_of_right_shorter l₁ l₂ (by simpa using h)]

/-- C10 (amended): when an explicit non-empty list of remote names shorter
than the list of local paths is given, batch_upload behaves exactly as if
only the first `len(remoteNames)` local paths had been passed — the
positional pairing truncates at the shorter list, the extra local paths are
never touched and can raise no error — and a successful batch returns
exactly `len(remoteNames)` remote keys. An explicit empty list is excluded:
Python's `s3_filenames or [None] * len(local_paths)` treats it as falsy and
replaces it with the default names, see the counterexample below. -/
theorem batch_upload_truncates_at_names (fsExists : String → Bool)
    (putResult : String → String → Except String Unit) (base_dir : String)
    (local_paths : List String) (ns : List String)
    (hne : ns ≠ []) (hlen : ns.length < local_paths.length) :
    batch_upload fsExists putResult base_dir local_paths (some ns) =
      batch_upload fsExists putResult base_dir (local_paths.take ns.length) (some ns) ∧
    ∀ ks, batch_upload fsExists putResult base_dir local_paths (some ns) = Except.ok ks →
      ks.length = ns.length := by
  have hmap : (ns.map some).length = ns.length := List.length_map _ _
  have hzip : local_paths.zip (ns.map some) =
      (local_paths.take ns.length).zip (ns.map some) := by
    have := zip_of_right_shorter local_paths (ns.map some) (by omega)
    rwa [hmap] at this
  have hbatch : batch_upload fsExists putResult base_dir local_paths (some ns) =
      batch_upload fsExists putResult base_dir (local_paths.take ns.length) (some ns) := by
    simp [batch_upload, hne, hzip]
  refine ⟨hbatch, ?_⟩
  intro ks hks
  have hlen' := batch_upload_go_ok_length fsExists putResult base_dir
    (local_paths.zip (ns.map some)) ks (by
      simpa [batch_upload, hne] using hks)
  rw [List.length_zip, hmap] at hlen'
  omega

/-- Witness for C10: three local paths, two remote names; the third path is
never consulted (the run equals the truncated run) and the successful batch
returns exactly two keys. -/
theorem batch_upload_truncates_at_names_witness :
    batch_upload (fun _ => true) (fun _ _ => Except.ok ()) "b"
        ["x1", "x2", "x3"] (some ["n1", "n2"]) =
      batch_upload (fun _ => true) (fun _ _ => Except.ok ()) "b"
        (["x1", "x2", "x3"].take 2) (some ["n1", "n2"]) ∧
    (["b/n1", "b/n2"] : List String).length = 2 :=
  ⟨(batch_upload_truncates_at_names (fun _ => true) (fun _ _ => Except.ok ()) "b"
      ["x1", "x2", "x3"] ["n1", "n2"] (by decide) (by decide)).1,
    (batch_upload_truncates_at_names (fun _ => true) (fun _ _ => Except.ok ()) "b"
      ["x1", "x2", "x3"] ["n1", "n2"] (by decide) (by decide)).2
      ["b/n1", "b/n2"] (by rfl)⟩

/-- Counterexample to C10 as stated: with the explicit remote-names list
`[]` — shorter than the two local paths — the claim would have only the
first 0 local paths uploaded and 0 keys returned; but
`s3_filenames = s3_filenames or [None] * len(local_paths)` treats the
explicit empty list exactly like `None` (Python `or` on a falsy value), so
every local path is uploaded under its own file name and two keys come
back. -/
theorem batch_upload_empty_names_uploads_all :
    batch_upload (fun _ => true) (fun _ _ => Except.ok ()) "b"
        ["x1", "x2"] (some []) =
      Except.ok ["b/x1", "b/x2"] ∧
    (["b/x1", "b/x2"] : List String).length ≠ ([] : List String).length :=
  ⟨rfl, by decide⟩

end AvatarCreator
